import Mathlib

set_option maxHeartbeats 1000000

namespace ChessAI

/-- Extended score type for the search. It mirrors the numeric values flowing
through the Python code: integer material and mate scores produced by
evaluate_board, together with the two infinities from math.inf that seed the
alpha-beta window and the running best values. -/
inductive Score where
  | negInf : Score
  | val : Int → Score
  | posInf : Score
deriving DecidableEq

/-- Boolean comparison on scores, mirroring the total order on floats that the
Python code relies on when it compares evaluation results, running maxima and
minima, and the infinities. -/
def Score.leb : Score → Score → Bool
  | Score.negInf, _ => true
  | Score.val _, Score.negInf => false
  | Score.val a, Score.val b => decide (a ≤ b)
  | Score.val _, Score.posInf => true
  | Score.posInf, Score.negInf => false
  | Score.posInf, Score.val _ => false
  | Score.posInf, Score.posInf => true

instance : LE Score := ⟨fun a b => Score.leb a b = true⟩

instance Score.decLE : ∀ a b : Score, Decidable (a ≤ b) := fun a b =>
  inferInstanceAs (Decidable (Score.leb a b = true))

instance : LinearOrder Score where
  le := (· ≤ ·)
  le_refl a := by
    show Score.leb a a = true
    cases a <;> simp [Score.leb]
  le_trans a b c hab hbc := by
    have h1 : Score.leb a b = true := hab
    have h2 : Score.leb b c = true := hbc
    show Score.leb a c = true
    cases a <;> cases b <;> cases c <;> simp_all [Score.leb] <;> omega
  le_antisymm a b hab hba := by
    have h1 : Score.leb a b = true := hab
    have h2 : Score.leb b a = true := hba
    cases a <;> cases b <;> simp_all [Score.leb] <;> omega
  le_total a b := by
    show Score.leb a b = true ∨ Score.leb b a = true
    cases a <;> cases b <;> simp [Score.leb] <;> omega
  decidableLE := Score.decLE

instance : Bot Score := ⟨Score.negInf⟩

instance : Top Score := ⟨Score.posInf⟩

instance : OrderBot Score where
  bot_le a := by cases a <;> rfl

instance : OrderTop Score where
  le_top a := by cases a <;> rfl

/-- Python-chess color constants: chess.WHITE is True. -/
def WHITE : Bool := true

/-- Python-chess color constants: chess.BLACK is False. -/
def BLACK : Bool := false

/-- Piece kinds of chess, as used by the piece_values dictionary in
evaluate_board. -/
inductive PieceType where
  | pawn : PieceType
  | knight : PieceType
  | bishop : PieceType
  | rook : PieceType
  | queen : PieceType
  | king : PieceType
deriving DecidableEq

/-- A piece as the Rules Engine reports it: a piece kind and its color. -/
structure Piece where
  piece_type : PieceType
  color : Bool
deriving DecidableEq

/-- The piece_values dictionary of evaluate_board (lines 115-118 of
CHESS_MINMAX.py). Every piece kind is present, so the .get default 0 of the
Python dictionary lookup is never used. -/
def piece_values : PieceType → Int
  | PieceType.pawn => 1
  | PieceType.knight => 3
  | PieceType.bishop => 3
  | PieceType.rook => 5
  | PieceType.queen => 9
  | PieceType.king => 0

/-- Modelled from the spec: the external Rules Engine (the python-chess
library, not part of this repository). Positions and moves are treated abstractly; the
fields are exactly the capabilities the core consumes: legal-move enumeration,
applying a move to reach a successor position, terminal-state queries, the
side to move, and piece lookup per square (squares are 0..63, the range
chess.SQUARES iterates). -/
structure Rules (Pos Move : Type) where
  legal_moves : Pos → List Move
  push : Pos → Move → Pos
  is_game_over : Pos → Bool
  is_checkmate : Pos → Bool
  is_stalemate : Pos → Bool
  turn : Pos → Bool
  piece_at : Pos → Nat → Option Piece

/-- The observable state of the one shared chess.Board object: the current
position together with the stack of pushed moves (each stack entry remembers
the position the move was played from, which is what board.pop restores). -/
structure Board (Pos Move : Type) where
  stack : List (Pos × Move)
  current : Pos
deriving DecidableEq

/-- The board.push operation of the Rules Engine: play a move on the shared
board, recording it on the move stack. -/
def pushB {Pos Move : Type} (R : Rules Pos Move) (b : Board Pos Move) (m : Move) :
    Board Pos Move :=
  ⟨(b.current, m) :: b.stack, R.push b.current m⟩

/-- The board.pop operation of the Rules Engine: undo the most recent pushed
move, restoring the previous position. On an empty stack it leaves the board
unchanged; the search only ever pops a move it has just pushed. -/
def popB {Pos Move : Type} (b : Board Pos Move) : Board Pos Move :=
  match b.stack with
  | [] => b
  | (p, _) :: rest => ⟨rest, p⟩

/-- The material summation loop of evaluate_board (lines 120-126): iterate
over the 64 squares, add the piece value for white pieces and subtract it for
black pieces. -/
def material {Pos Move : Type} (R : Rules Pos Move) (p : Pos) : Int :=
  (List.range 64).foldl
    (fun score square =>
      match R.piece_at p square with
      | some piece =>
          score +
            (if piece.color = WHITE then piece_values piece.piece_type
             else -piece_values piece.piece_type)
      | none => score)
    0

/-- ChessGame.evaluate_board (lines 103-126): mate sentinel signed against the
side to move, zero for stalemate, otherwise the material sum. -/
def evaluate_board {Pos Move : Type} (R : Rules Pos Move) (p : Pos) : Int :=
  if R.is_checkmate p then (if R.turn p then -1000 else 1000)
  else if R.is_stalemate p then 0
  else material R p

/-- The maximizing loop of ChessGame.minimax (lines 72-86): for each legal
move push it, recurse with is_maximizing set to False, pop it, keep the
strictly best score and its move, raise alpha, and break once beta is not
above alpha. The recursive call is supplied as the function recur. -/
def maxLoop {Pos Move : Type}
    (recur : Board Pos Move → Score → Score → Score × Option Move × Board Pos Move)
    (R : Rules Pos Move) :
    List Move → Board Pos Move → Score → Option Move → Score → Score →
      Score × Option Move × Board Pos Move
  | [], st, max_eval, best_move, _, _ => (max_eval, best_move, st)
  | move :: rest, st, max_eval, best_move, alpha, beta =>
      let st1 := pushB R st move
      let r := recur st1 alpha beta
      let st2 := popB r.2.2
      let max_eval' := if r.1 > max_eval then r.1 else max_eval
      let best_move' := if r.1 > max_eval then some move else best_move
      let alpha' : Score := max alpha r.1
      if beta ≤ alpha' then (max_eval', best_move', st2)
      else maxLoop recur R rest st2 max_eval' best_move' alpha' beta

/-- The minimizing loop of ChessGame.minimax (lines 87-101): the mirror image
of the maximizing loop, keeping the strictly smallest score, lowering beta,
and breaking once beta is not above alpha. -/
def minLoop {Pos Move : Type}
    (recur : Board Pos Move → Score → Score → Score × Option Move × Board Pos Move)
    (R : Rules Pos Move) :
    List Move → Board Pos Move → Score → Option Move → Score → Score →
      Score × Option Move × Board Pos Move
  | [], st, min_eval, best_move, _, _ => (min_eval, best_move, st)
  | move :: rest, st, min_eval, best_move, alpha, beta =>
      let st1 := pushB R st move
      let r := recur st1 alpha beta
      let st2 := popB r.2.2
      let min_eval' := if r.1 < min_eval then r.1 else min_eval
      let best_move' := if r.1 < min_eval then some move else best_move
      let beta' : Score := min beta r.1
      if beta' ≤ alpha then (min_eval', best_move', st2)
      else minLoop recur R rest st2 min_eval' best_move' alpha beta'

/-- ChessGame.minimax (lines 61-101): alpha-beta search over the shared
board. The result is the returned (score, best_move) pair together with the
board state after the call, so that the restoration of the shared board is
part of the observable behavior. Depth counts plies remaining; at depth 0 or
on a position the Rules Engine reports as game over it returns the static
evaluation and no move. -/
def minimax {Pos Move : Type} (R : Rules Pos Move) :
    Nat → Board Pos Move → Score → Score → Bool →
      Score × Option Move × Board Pos Move
  | 0, st, _, _, _ => (Score.val (evaluate_board R st.current), none, st)
  | depth + 1, st, alpha, beta, is_maximizing =>
      if R.is_game_over st.current then
        (Score.val (evaluate_board R st.current), none, st)
      else
        let legal_moves := R.legal_moves st.current
        if is_maximizing then
          maxLoop (fun st' a b => minimax R depth st' a b false) R legal_moves
            st Score.negInf none alpha beta
        else
          minLoop (fun st' a b => minimax R depth st' a b true) R legal_moves
            st Score.posInf none alpha beta

/-- Modelled from the spec: the maximizing loop of plain minimax without
pruning, the comparison point of the pruning-equivalence property. It keeps
the same first-strict-improvement tie-break as the code but threads no
alpha-beta window and never breaks out of the loop. -/
def plainMaxLoop {Pos Move : Type} (pe : Pos → Score) (R : Rules Pos Move) :
    List Move → Pos → Score → Option Move → Score × Option Move
  | [], _, best_eval, best_move => (best_eval, best_move)
  | move :: rest, p, best_eval, best_move =>
      let s := pe (R.push p move)
      if s > best_eval then plainMaxLoop pe R rest p s (some move)
      else plainMaxLoop pe R rest p best_eval best_move

/-- Modelled from the spec: the minimizing loop of plain minimax without
pruning. -/
def plainMinLoop {Pos Move : Type} (pe : Pos → Score) (R : Rules Pos Move) :
    List Move → Pos → Score → Option Move → Score × Option Move
  | [], _, best_eval, best_move => (best_eval, best_move)
  | move :: rest, p, best_eval, best_move =>
      let s := pe (R.push p move)
      if s < best_eval then plainMinLoop pe R rest p s (some move)
      else plainMinLoop pe R rest p best_eval best_move

/-- Modelled from the spec: plain minimax without alpha-beta pruning over the
same game tree, with the same termination rule and the same tie-break, used
to state the pruning-equivalence property. -/
def plainMinimax {Pos Move : Type} (R : Rules Pos Move) :
    Nat → Pos → Bool → Score × Option Move
  | 0, p, _ => (Score.val (evaluate_board R p), none)
  | depth + 1, p, is_maximizing =>
      if R.is_game_over p then (Score.val (evaluate_board R p), none)
      else if is_maximizing then
        plainMaxLoop (fun q => (plainMinimax R depth q false).1) R
          (R.legal_moves p) p Score.negInf none
      else
        plainMinLoop (fun q => (plainMinimax R depth q true).1) R
          (R.legal_moves p) p Score.posInf none

/-- Score-only view of the plain maximizing loop: fold the running maximum
with the strict-improvement update over the child scores. -/
def plainFoldMax {Move : Type} (e : Move → Score) : List Move → Score → Score
  | [], acc => acc
  | m :: rest, acc => plainFoldMax e rest (if e m > acc then e m else acc)

/-- Score-only view of the plain minimizing loop. -/
def plainFoldMin {Move : Type} (e : Move → Score) : List Move → Score → Score
  | [], acc => acc
  | m :: rest, acc => plainFoldMin e rest (if e m < acc then e m else acc)

/-- The game modes offered by main: human vs human, human vs random computer,
human vs minimax computer. -/
inductive Mode where
  | hvh : Mode
  | hvr : Mode
  | hvm : Mode
deriving DecidableEq

/-- The is_ai_turn condition of ChessGame.play_game (lines 150-151): the
automated player moves exactly when the mode is hvr or hvm and the side to
move is Black. -/
def is_ai_turn (mode : Mode) (turn : Bool) : Bool :=
  (mode == Mode.hvr && turn == BLACK) || (mode == Mode.hvm && turn == BLACK)

/-- The Search Engine invocation of ChessGame.play_game in hvm mode (line
158): self.minimax(depth=3) with the Python default arguments alpha=-inf,
beta=inf and is_maximizing=True. -/
def hvm_ai_search {Pos Move : Type} (R : Rules Pos Move) (st : Board Pos Move) :
    Score × Option Move × Board Pos Move :=
  minimax R 3 st Score.negInf Score.posInf true

/-- A Rules Engine snapshot of a finished game that still has pseudo legal
moves listed: used to check that minimax answers terminal positions without
touching the move list. -/
def termR : Rules Unit Unit where
  legal_moves := fun _ => [(), ()]
  push := fun _ _ => ()
  is_game_over := fun _ => true
  is_checkmate := fun _ => false
  is_stalemate := fun _ => false
  turn := fun _ => true
  piece_at := fun _ _ => none

/-- An inconsistent Rules Engine snapshot: the position is not reported game
over, yet the legal-move enumeration is empty. The Rules Engine of the source
never produces this; it exercises the empty-enumeration edge case of the
search. -/
def emptyR : Rules Unit Unit where
  legal_moves := fun _ => []
  push := fun _ _ => ()
  is_game_over := fun _ => false
  is_checkmate := fun _ => false
  is_stalemate := fun _ => false
  turn := fun _ => true
  piece_at := fun _ _ => none

/-- A two-move one-ply game: from the root position 0 the moves true and
false lead to positions 1 and 2; position 1 holds a single white pawn.
Used to observe which children an inverted-window search examines. -/
def twoMoveR : Rules Nat Bool where
  legal_moves := fun p => if p = 0 then [true, false] else []
  push := fun _ mv => if mv then 1 else 2
  is_game_over := fun p => p != 0
  is_checkmate := fun _ => false
  is_stalemate := fun _ => false
  turn := fun _ => true
  piece_at := fun p sq =>
    if p = 1 && sq = 0 then some ⟨PieceType.pawn, true⟩ else none

/-- A Rules Engine snapshot of checkmate positions: every position is
checkmate, the side to move is the position itself (true means White), and a
white queen stands on the board so that material would be nonzero. -/
def cmR : Rules Bool Unit where
  legal_moves := fun _ => []
  push := fun _ _ => true
  is_game_over := fun _ => true
  is_checkmate := fun _ => true
  is_stalemate := fun _ => false
  turn := fun p => p
  piece_at := fun _ sq => if sq = 3 then some ⟨PieceType.queen, WHITE⟩ else none

/-- A Rules Engine snapshot of a draw by insufficient material: white king
and bishop against the lone black king, game over, but neither checkmate nor
stalemate. Kings stand on e1 and e8 and the bishop on c1. -/
def insuffR : Rules Unit Unit where
  legal_moves := fun _ => [()]
  push := fun _ _ => ()
  is_game_over := fun _ => true
  is_checkmate := fun _ => false
  is_stalemate := fun _ => false
  turn := fun _ => true
  piece_at := fun _ sq =>
    if sq = 4 then some ⟨PieceType.king, WHITE⟩
    else if sq = 2 then some ⟨PieceType.bishop, WHITE⟩
    else if sq = 60 then some ⟨PieceType.king, BLACK⟩
    else none

/-- A Rules Engine snapshot of a stalemate in which White is a rook up:
the evaluation must ignore the material. -/
def staleR : Rules Unit Unit where
  legal_moves := fun _ => []
  push := fun _ _ => ()
  is_game_over := fun _ => true
  is_checkmate := fun _ => false
  is_stalemate := fun _ => true
  turn := fun _ => false
  piece_at := fun _ sq =>
    if sq = 0 then some ⟨PieceType.rook, WHITE⟩
    else if sq = 4 then some ⟨PieceType.king, WHITE⟩
    else if sq = 60 then some ⟨PieceType.king, BLACK⟩
    else none

/-- A consistent two-position game: the start position false has exactly one
legal move leading to the finished position true. Non-terminal positions
always have a legal move, as the real Rules Engine guarantees. -/
def stepR : Rules Bool Unit where
  legal_moves := fun p => if p then [] else [()]
  push := fun _ _ => true
  is_game_over := fun p => p
  is_checkmate := fun _ => false
  is_stalemate := fun _ => false
  turn := fun p => p
  piece_at := fun _ _ => none

/-- A Rules Engine snapshot holding one checkmate position, true, and one
quiet position, false, where White is a bishop up: used to compare the mate
evaluation with a material evaluation. -/
def dominR : Rules Bool Unit where
  legal_moves := fun p => if p then [] else [()]
  push := fun _ _ => true
  is_game_over := fun p => p
  is_checkmate := fun p => p
  is_stalemate := fun _ => false
  turn := fun _ => true
  piece_at := fun p sq =>
    if p then none
    else if sq = 2 then some ⟨PieceType.bishop, WHITE⟩ else none

theorem Score.negInf_eq_bot : Score.negInf = (⊥ : Score) := rfl

theorem Score.posInf_eq_top : Score.posInf = (⊤ : Score) := rfl

theorem Score.val_ne_negInf (n : Int) : Score.val n ≠ Score.negInf := fun h =>
  Score.noConfusion h

theorem Score.val_ne_posInf (n : Int) : Score.val n ≠ Score.posInf := fun h =>
  Score.noConfusion h

theorem Score.negInf_lt_val (n : Int) : Score.negInf < Score.val n := by
  rw [Score.negInf_eq_bot]
  exact Ne.bot_lt (Score.val_ne_negInf n)

theorem Score.val_lt_posInf (n : Int) : Score.val n < Score.posInf := by
  rw [Score.posInf_eq_top]
  exact Ne.lt_top (Score.val_ne_posInf n)

theorem Score.negInf_lt_posInf : Score.negInf < Score.posInf := by decide

theorem if_lt_max (a b : Score) : (if a < b then b else a) = max a b := by
  by_cases h : a < b
  · simp [h, max_eq_right h.le]
  · simp [h, max_eq_left (not_lt.mp h)]

theorem if_lt_min (a b : Score) : (if b < a then b else a) = min a b := by
  by_cases h : b < a
  · simp [h, min_eq_right h.le]
  · simp [h, min_eq_left (not_lt.mp h)]

theorem popB_pushB {Pos Move : Type} (R : Rules Pos Move) (st : Board Pos Move)
    (m : Move) : popB (pushB R st m) = st := rfl

theorem maxLoop_frame {Pos Move : Type}
    (recur : Board Pos Move → Score → Score → Score × Option Move × Board Pos Move)
    (R : Rules Pos Move)
    (hframe : ∀ st' a b, (recur st' a b).2.2 = st') :
    ∀ (ms : List Move) (st : Board Pos Move) (m0 : Score) (bm : Option Move)
      (alpha beta : Score),
      (maxLoop recur R ms st m0 bm alpha beta).2.2 = st := by
  intro ms
  induction ms with
  | nil => intro st m0 bm alpha beta; rfl
  | cons m rest ih =>
      intro st m0 bm alpha beta
      simp only [maxLoop, hframe, popB_pushB]
      by_cases hb : beta ≤ max alpha (recur (pushB R st m) alpha beta).1
      · simp [hb]
      · simp only [hb, if_neg, ite_false]
        exact ih st _ _ _ _

theorem minLoop_frame {Pos Move : Type}
    (recur : Board Pos Move → Score → Score → Score × Option Move × Board Pos Move)
    (R : Rules Pos Move)
    (hframe : ∀ st' a b, (recur st' a b).2.2 = st') :
    ∀ (ms : List Move) (st : Board Pos Move) (m0 : Score) (bm : Option Move)
      (alpha beta : Score),
      (minLoop recur R ms st m0 bm alpha beta).2.2 = st := by
  intro ms
  induction ms with
  | nil => intro st m0 bm alpha beta; rfl
  | cons m rest ih =>
      intro st m0 bm alpha beta
      simp only [minLoop, hframe, popB_pushB]
      by_cases hb : min beta (recur (pushB R st m) alpha beta).1 ≤ alpha
      · simp [hb]
      · simp only [hb, if_neg, ite_false]
        exact ih st _ _ _ _

theorem minimax_frame {Pos Move : Type} (R : Rules Pos Move) :
    ∀ (d : Nat) (st : Board Pos Move) (alpha beta : Score) (maxi : Bool),
      (minimax R d st alpha beta maxi).2.2 = st := by
  intro d
  induction d with
  | zero => intro st alpha beta maxi; rfl
  | succ d ih =>
      intro st alpha beta maxi
      by_cases hg : R.is_game_over st.current
      · simp [minimax, hg]
      · cases maxi
        · simp only [minimax, hg, Bool.false_eq_true, if_false, ite_false]
          exact minLoop_frame _ R (fun st' a b => ih st' a b true) _ _ _ _ _ _
        · simp only [minimax, hg, if_false, ite_true, ite_false]
          exact maxLoop_frame _ R (fun st' a b => ih st' a b false) _ _ _ _ _ _

/-- Claim C4: for every Position, depth, alpha, beta and maximizing flag,
after minimax returns the shared board is identical in every observable field
(current position and move stack) to the board before the call: every level
pushes a move, recurses, and pops it again in LIFO order. -/
theorem minimax_restores_board {Pos Move : Type} (R : Rules Pos Move) (d : Nat)
    (st : Board Pos Move) (alpha beta : Score) (maxi : Bool) :
    (minimax R d st alpha beta maxi).2.2 = st :=
  minimax_frame R d st alpha beta maxi

/-- Claim C3: minimax called at depth 0, or on a position the Rules Engine
reports as game over, returns the static evaluation and absence-of-move, with
the board untouched, regardless of the legal moves the position would offer. -/
theorem minimax_terminal {Pos Move : Type} (R : Rules Pos Move) (d : Nat)
    (st : Board Pos Move) (alpha beta : Score) (maxi : Bool)
    (h : d = 0 ∨ R.is_game_over st.current = true) :
    minimax R d st alpha beta maxi =
      (Score.val (evaluate_board R st.current), none, st) := by
  rcases h with h | h
  · subst h; rfl
  · cases d with
    | zero => rfl
    | succ d => simp [minimax, h]

/-- Witness for claim C3: a finished position with a nonempty move list is
answered immediately at depth 5, and a depth-0 call is answered immediately
on a live position. -/
theorem minimax_terminal_witness :
    minimax termR 5 ⟨[], ()⟩ (Score.val 2) (Score.val 1) true =
      (Score.val (evaluate_board termR ()), none, ⟨[], ()⟩) ∧
    minimax emptyR 0 ⟨[], ()⟩ Score.negInf Score.posInf false =
      (Score.val (evaluate_board emptyR ()), none, ⟨[], ()⟩) :=
  ⟨minimax_terminal termR 5 ⟨[], ()⟩ (Score.val 2) (Score.val 1) true (Or.inr rfl),
   minimax_terminal emptyR 0 ⟨[], ()⟩ Score.negInf Score.posInf false (Or.inl rfl)⟩

/-- Claim C1: in hvm mode the game loop hands the turn to the automated
player exactly when Black, the minimizing side, is to move, yet the search it
then invokes is minimax with the defaulted flag is_maximizing set to true,
the flag of the maximizing side White: the flag passed does not correspond to
the side to move. -/
theorem hvm_search_flag_mismatch :
    (∀ t : Bool, is_ai_turn Mode.hvm t = (t == BLACK)) ∧
    (∀ (Pos Move : Type) (R : Rules Pos Move) (st : Board Pos Move),
        hvm_ai_search R st = minimax R 3 st Score.negInf Score.posInf true) ∧
    (BLACK == true) = false :=
  ⟨by decide, fun _ _ _ _ => rfl, by decide⟩

/-- Claim C5: on checkmate positions the evaluation is the mate sentinel 1000
signed against the side to move, independent of material. -/
theorem evaluate_checkmate {Pos Move : Type} (R : Rules Pos Move) (p : Pos)
    (h : R.is_checkmate p = true) :
    evaluate_board R p = if R.turn p then -1000 else 1000 := by
  simp [evaluate_board, h]

/-- Witness for claim C5: with a white queen on the board, checkmate with
White to move evaluates to -1000 and checkmate with Black to move to 1000. -/
theorem evaluate_checkmate_witness :
    evaluate_board cmR WHITE = -1000 ∧ evaluate_board cmR BLACK = 1000 := by
  have h1 := evaluate_checkmate cmR WHITE rfl
  have h2 := evaluate_checkmate cmR BLACK rfl
  exact ⟨by simpa [cmR, WHITE] using h1, by simpa [cmR, BLACK] using h2⟩

/-- Counterexample to claim C6: a draw by insufficient material, white king
and bishop against a bare black king, is a drawn terminal position reported
by the Rules Engine that is neither checkmate nor stalemate, and the
evaluation returns the material sum 3, not 0. -/
theorem evaluate_draw_cex :
    insuffR.is_game_over () = true ∧ insuffR.is_checkmate () = false ∧
    insuffR.is_stalemate () = false ∧ evaluate_board insuffR () = 3 := by
  refine ⟨rfl, rfl, rfl, ?e⟩
  decide

/-- Claim C6 as amended: on positions that are not checkmate, the evaluation
returns 0 exactly when the Rules Engine reports stalemate; every other
position, drawn terminal conditions such as insufficient material included,
falls through to the material count. -/
theorem evaluate_draw_behavior {Pos Move : Type} (R : Rules Pos Move) (p : Pos)
    (hcm : R.is_checkmate p = false) :
    (R.is_stalemate p = true → evaluate_board R p = 0) ∧
    (R.is_stalemate p = false → evaluate_board R p = material R p) := by
  constructor <;> intro hs <;> simp [evaluate_board, hcm, hs]

/-- Witness for the amended claim C6: a stalemate with a white rook up still
evaluates to 0, and the insufficient-material draw evaluates to its material
sum. -/
theorem evaluate_draw_behavior_witness :
    evaluate_board staleR () = 0 ∧
    evaluate_board insuffR () = material insuffR () :=
  ⟨(evaluate_draw_behavior staleR () rfl).1 rfl,
   (evaluate_draw_behavior insuffR () rfl).2 rfl⟩

/-- Counterexample to claim C7: on a position not reported game over whose
legal-move enumeration is empty, minimax at depth 1 returns the ordinary
result triple with score negative infinity and absence-of-move, and the
board unchanged: a silent normal return, with no assertion and no failure
signal anywhere in the function. -/
theorem minimax_empty_cex :
    minimax emptyR 1 ⟨[], ()⟩ Score.negInf Score.posInf true =
      (Score.negInf, none, ⟨[], ()⟩) := by decide

/-- Claim C7 as amended: at depth greater than 0 on a position not reported
game over with an empty legal-move enumeration, minimax silently returns the
loop identity, negative infinity for the maximizing side and positive
infinity for the minimizing side, with absence-of-move, as a normal
SearchResult; no invariant violation is signalled. -/
theorem minimax_empty_silent {Pos Move : Type} (R : Rules Pos Move)
    (st : Board Pos Move) (d : Nat) (alpha beta : Score)
    (hg : R.is_game_over st.current = false)
    (hl : R.legal_moves st.current = []) :
    minimax R (d + 1) st alpha beta true = (Score.negInf, none, st) ∧
    minimax R (d + 1) st alpha beta false = (Score.posInf, none, st) := by
  constructor <;> simp [minimax, hg, hl, maxLoop, minLoop]

/-- Witness for the amended claim C7. -/
theorem minimax_empty_silent_witness :
    minimax emptyR 2 ⟨[], ()⟩ (Score.val 0) (Score.val 7) true =
      (Score.negInf, none, ⟨[], ()⟩) ∧
    minimax emptyR 2 ⟨[], ()⟩ (Score.val 0) (Score.val 7) false =
      (Score.posInf, none, ⟨[], ()⟩) :=
  minimax_empty_silent emptyR ⟨[], ()⟩ 1 (Score.val 0) (Score.val 7) rfl rfl

/-- Counterexample to claim C8: minimax invoked with alpha strictly above
beta returns a normal SearchResult instead of failing fast: on the two-move
game it returns the value of the first child with the first move, having cut
off the rest of the enumeration. -/
theorem minimax_inverted_cex :
    minimax twoMoveR 1 ⟨[], 0⟩ (Score.val 5) (Score.val 3) true =
      (Score.val 1, some true, ⟨[], 0⟩) := by decide

/-- Claim C8 as amended: minimax performs no alpha-beta precondition check;
called with beta strictly below alpha on a live position it returns a normal
SearchResult computed from the first legal move alone, because the cutoff
fires immediately after the first child; the bounds are never swapped and no
error is raised. -/
theorem minimax_inverted_window {Pos Move : Type} (R : Rules Pos Move)
    (st : Board Pos Move) (d : Nat) (alpha beta : Score) (m : Move)
    (rest : List Move) (hba : beta < alpha)
    (hg : R.is_game_over st.current = false)
    (hl : R.legal_moves st.current = m :: rest) :
    minimax R (d + 1) st alpha beta true =
      ((if (minimax R d (pushB R st m) alpha beta false).1 > Score.negInf
          then (minimax R d (pushB R st m) alpha beta false).1 else Score.negInf),
       (if (minimax R d (pushB R st m) alpha beta false).1 > Score.negInf
          then some m else none), st) ∧
    minimax R (d + 1) st alpha beta false =
      ((if (minimax R d (pushB R st m) alpha beta true).1 < Score.posInf
          then (minimax R d (pushB R st m) alpha beta true).1 else Score.posInf),
       (if (minimax R d (pushB R st m) alpha beta true).1 < Score.posInf
          then some m else none), st) := by
  have hcutMax : beta ≤ max alpha (minimax R d (pushB R st m) alpha beta false).1 :=
    le_trans hba.le (le_max_left _ _)
  have hcutMin : min beta (minimax R d (pushB R st m) alpha beta true).1 ≤ alpha :=
    le_trans (min_le_left _ _) hba.le
  constructor
  · simp [minimax, hg, hl, maxLoop, minimax_frame, popB_pushB, hcutMax]
  · simp [minimax, hg, hl, minLoop, minimax_frame, popB_pushB, hcutMin]

/-- Witness for the amended claim C8: the inverted-window search on the
two-move game returns the first-child result. -/
theorem minimax_inverted_window_witness :
    minimax twoMoveR 1 ⟨[], 0⟩ (Score.val 5) (Score.val 3) true =
      ((if (minimax twoMoveR 0 (pushB twoMoveR ⟨[], 0⟩ true) (Score.val 5)
              (Score.val 3) false).1 > Score.negInf
          then (minimax twoMoveR 0 (pushB twoMoveR ⟨[], 0⟩ true) (Score.val 5)
              (Score.val 3) false).1 else Score.negInf),
       (if (minimax twoMoveR 0 (pushB twoMoveR ⟨[], 0⟩ true) (Score.val 5)
              (Score.val 3) false).1 > Score.negInf
          then some true else none), ⟨[], 0⟩) :=
  (minimax_inverted_window twoMoveR ⟨[], 0⟩ 0 (Score.val 5) (Score.val 3) true
    [false] (by decide) rfl rfl).1

theorem maxLoop_cons {Pos Move : Type}
    (recur : Board Pos Move → Score → Score → Score × Option Move × Board Pos Move)
    (R : Rules Pos Move)
    (hframe : ∀ st' a b, (recur st' a b).2.2 = st')
    (m : Move) (rest : List Move) (st : Board Pos Move) (m0 : Score)
    (bm : Option Move) (alpha beta : Score) :
    maxLoop recur R (m :: rest) st m0 bm alpha beta =
      if beta ≤ max alpha (recur (pushB R st m) alpha beta).1 then
        (max m0 (recur (pushB R st m) alpha beta).1,
         if m0 < (recur (pushB R st m) alpha beta).1 then some m else bm, st)
      else
        maxLoop recur R rest st (max m0 (recur (pushB R st m) alpha beta).1)
          (if m0 < (recur (pushB R st m) alpha beta).1 then some m else bm)
          (max alpha (recur (pushB R st m) alpha beta).1) beta := by
  simp only [maxLoop, hframe, popB_pushB, gt_iff_lt, if_lt_max]

theorem minLoop_cons {Pos Move : Type}
    (recur : Board Pos Move → Score → Score → Score × Option Move × Board Pos Move)
    (R : Rules Pos Move)
    (hframe : ∀ st' a b, (recur st' a b).2.2 = st')
    (m : Move) (rest : List Move) (st : Board Pos Move) (m0 : Score)
    (bm : Option Move) (alpha beta : Score) :
    minLoop recur R (m :: rest) st m0 bm alpha beta =
      if min beta (recur (pushB R st m) alpha beta).1 ≤ alpha then
        (min m0 (recur (pushB R st m) alpha beta).1,
         if (recur (pushB R st m) alpha beta).1 < m0 then some m else bm, st)
      else
        minLoop recur R rest st (min m0 (recur (pushB R st m) alpha beta).1)
          (if (recur (pushB R st m) alpha beta).1 < m0 then some m else bm)
          alpha (min beta (recur (pushB R st m) alpha beta).1) := by
  simp only [minLoop, hframe, popB_pushB, if_lt_min]

theorem plainFoldMax_cons {Move : Type} (e : Move → Score) (m : Move)
    (rest : List Move) (acc : Score) :
    plainFoldMax e (m :: rest) acc = plainFoldMax e rest (max acc (e m)) := by
  simp only [plainFoldMax, gt_iff_lt, if_lt_max]

theorem plainFoldMin_cons {Move : Type} (e : Move → Score) (m : Move)
    (rest : List Move) (acc : Score) :
    plainFoldMin e (m :: rest) acc = plainFoldMin e rest (min acc (e m)) := by
  simp only [plainFoldMin, if_lt_min]

theorem le_plainFoldMax {Move : Type} (e : Move → Score) :
    ∀ (ms : List Move) (acc : Score), acc ≤ plainFoldMax e ms acc := by
  intro ms
  induction ms with
  | nil => intro acc; exact le_refl acc
  | cons m rest ih =>
      intro acc
      rw [plainFoldMax_cons]
      exact le_trans (le_max_left acc (e m)) (ih (max acc (e m)))

theorem plainFoldMin_le {Move : Type} (e : Move → Score) :
    ∀ (ms : List Move) (acc : Score), plainFoldMin e ms acc ≤ acc := by
  intro ms
  induction ms with
  | nil => intro acc; exact le_refl acc
  | cons m rest ih =>
      intro acc
      rw [plainFoldMin_cons]
      exact le_trans (ih (min acc (e m))) (min_le_left acc (e m))

theorem maxLoop_bounds {Pos Move : Type} (R : Rules Pos Move)
    (recur : Board Pos Move → Score → Score → Score × Option Move × Board Pos Move)
    (e : Move → Score) (st : Board Pos Move) (alpha beta : Score)
    (hframe : ∀ st' a b, (recur st' a b).2.2 = st')
    (hrec : ∀ (m : Move) (a : Score), a < beta →
      (((recur (pushB R st m) a beta).1 ≤ a → e m ≤ (recur (pushB R st m) a beta).1) ∧
       (beta ≤ (recur (pushB R st m) a beta).1 →
         (recur (pushB R st m) a beta).1 ≤ e m) ∧
       (a < (recur (pushB R st m) a beta).1 →
         (recur (pushB R st m) a beta).1 < beta →
         (recur (pushB R st m) a beta).1 = e m))) :
    ∀ (ms : List Move) (m0 p0 : Score) (bm : Option Move),
      max alpha m0 < beta → p0 ≤ m0 → (alpha < m0 → m0 ≤ p0) →
      (((maxLoop recur R ms st m0 bm (max alpha m0) beta).1 ≤ alpha →
          plainFoldMax e ms p0 ≤ (maxLoop recur R ms st m0 bm (max alpha m0) beta).1) ∧
       (beta ≤ (maxLoop recur R ms st m0 bm (max alpha m0) beta).1 →
          (maxLoop recur R ms st m0 bm (max alpha m0) beta).1 ≤ plainFoldMax e ms p0) ∧
       (alpha < (maxLoop recur R ms st m0 bm (max alpha m0) beta).1 →
          (maxLoop recur R ms st m0 bm (max alpha m0) beta).1 < beta →
          (maxLoop recur R ms st m0 bm (max alpha m0) beta).1 = plainFoldMax e ms p0)) := by
  intro ms
  induction ms with
  | nil =>
      intro m0 p0 bm hab hp hq
      simp only [maxLoop, plainFoldMax]
      refine ⟨fun _ => hp, ?i2, ?i3⟩
      · intro hbv
        exact absurd (le_trans hbv (le_max_right alpha m0)) (not_le.mpr hab)
      · intro h1 _
        exact (le_antisymm hp (hq h1)).symm
  | cons m rest ih =>
      intro m0 p0 bm hab hp hq
      have halb : alpha < beta := lt_of_le_of_lt (le_max_left alpha m0) hab
      obtain ⟨hA, hB, hC⟩ := hrec m (max alpha m0) hab
      rw [maxLoop_cons recur R hframe, plainFoldMax_cons]
      by_cases hbr : beta ≤ max (max alpha m0) (recur (pushB R st m) (max alpha m0) beta).1
      · rw [if_pos hbr]
        have hbv : beta ≤ (recur (pushB R st m) (max alpha m0) beta).1 := by
          rcases le_max_iff.mp hbr with h | h
          · exact absurd h (not_le.mpr hab)
          · exact h
        have hvm : m0 < (recur (pushB R st m) (max alpha m0) beta).1 :=
          lt_of_lt_of_le (lt_of_le_of_lt (le_max_right alpha m0) hab) hbv
        simp only [max_eq_right hvm.le]
        refine ⟨?j1, ?j2, ?j3⟩
        · intro hva
          exact absurd (le_trans hbv hva) (not_le.mpr halb)
        · intro _
          exact le_trans (hB hbv)
            (le_trans (le_max_right p0 (e m)) (le_plainFoldMax e rest _))
        · intro _ h2
          exact absurd h2 (not_lt.mpr hbv)
      · rw [if_neg hbr]
        have hlt : max (max alpha m0) (recur (pushB R st m) (max alpha m0) beta).1
            < beta := not_le.mp hbr
        have hvb : (recur (pushB R st m) (max alpha m0) beta).1 < beta :=
          lt_of_le_of_lt (le_max_right _ _) hlt
        have hab1 : max alpha (max m0 (recur (pushB R st m) (max alpha m0) beta).1)
            < beta := by
          rw [← max_assoc]
          exact hlt
        have hp1 : max p0 (e m) ≤ max m0 (recur (pushB R st m) (max alpha m0) beta).1 := by
          rcases le_or_lt (recur (pushB R st m) (max alpha m0) beta).1 (max alpha m0)
            with hvle | hvgt
          · exact max_le (le_trans hp (le_max_left _ _))
              (le_trans (hA hvle) (le_max_right _ _))
          · have hveq := hC hvgt hvb
            exact max_le (le_trans hp (le_max_left _ _)) (hveq ▸ le_max_right _ _)
        have hq1 : alpha < max m0 (recur (pushB R st m) (max alpha m0) beta).1 →
            max m0 (recur (pushB R st m) (max alpha m0) beta).1 ≤ max p0 (e m) := by
          intro h1
          rcases le_or_lt (recur (pushB R st m) (max alpha m0) beta).1 m0 with hvm | hvm
          · rw [max_eq_left hvm] at h1 ⊢
            exact le_trans (hq h1) (le_max_left p0 (e m))
          · rw [max_eq_right hvm.le] at h1 ⊢
            have hveq := hC (max_lt h1 hvm) hvb
            rw [hveq]
            exact le_max_right p0 (e m)
        rw [max_assoc]
        exact ih (max m0 (recur (pushB R st m) (max alpha m0) beta).1)
          (max p0 (e m)) _ hab1 hp1 hq1

theorem minLoop_bounds {Pos Move : Type} (R : Rules Pos Move)
    (recur : Board Pos Move → Score → Score → Score × Option Move × Board Pos Move)
    (e : Move → Score) (st : Board Pos Move) (alpha beta : Score)
    (hframe : ∀ st' a b, (recur st' a b).2.2 = st')
    (hrec : ∀ (m : Move) (b : Score), alpha < b →
      (((recur (pushB R st m) alpha b).1 ≤ alpha →
         e m ≤ (recur (pushB R st m) alpha b).1) ∧
       (b ≤ (recur (pushB R st m) alpha b).1 →
         (recur (pushB R st m) alpha b).1 ≤ e m) ∧
       (alpha < (recur (pushB R st m) alpha b).1 →
         (recur (pushB R st m) alpha b).1 < b →
         (recur (pushB R st m) alpha b).1 = e m))) :
    ∀ (ms : List Move) (m0 p0 : Score) (bm : Option Move),
      alpha < min beta m0 → m0 ≤ p0 → (m0 < beta → p0 ≤ m0) →
      (((minLoop recur R ms st m0 bm alpha (min beta m0)).1 ≤ alpha →
          plainFoldMin e ms p0 ≤ (minLoop recur R ms st m0 bm alpha (min beta m0)).1) ∧
       (beta ≤ (minLoop recur R ms st m0 bm alpha (min beta m0)).1 →
          (minLoop recur R ms st m0 bm alpha (min beta m0)).1 ≤ plainFoldMin e ms p0) ∧
       (alpha < (minLoop recur R ms st m0 bm alpha (min beta m0)).1 →
          (minLoop recur R ms st m0 bm alpha (min beta m0)).1 < beta →
          (minLoop recur R ms st m0 bm alpha (min beta m0)).1 = plainFoldMin e ms p0)) := by
  intro ms
  induction ms with
  | nil =>
      intro m0 p0 bm hab hp hq
      simp only [minLoop, plainFoldMin]
      refine ⟨?i1, fun _ => hp, ?i3⟩
      · intro hva
        exact absurd (le_trans (min_le_right beta m0) hva) (not_le.mpr hab)
      · intro _ h2
        exact (le_antisymm (hq h2) hp).symm
  | cons m rest ih =>
      intro m0 p0 bm hab hp hq
      have halb : alpha < beta := lt_of_lt_of_le hab (min_le_left beta m0)
      obtain ⟨hA, hB, hC⟩ := hrec m (min beta m0) hab
      rw [minLoop_cons recur R hframe, plainFoldMin_cons]
      by_cases hbr : min (min beta m0) (recur (pushB R st m) alpha (min beta m0)).1 ≤ alpha
      · rw [if_pos hbr]
        have hva : (recur (pushB R st m) alpha (min beta m0)).1 ≤ alpha := by
          rcases min_le_iff.mp hbr with h | h
          · exact absurd h (not_le.mpr hab)
          · exact h
        have hvm : (recur (pushB R st m) alpha (min beta m0)).1 < m0 :=
          lt_of_le_of_lt hva (lt_of_lt_of_le hab (min_le_right beta m0))
        simp only [min_eq_right hvm.le]
        refine ⟨?j1, ?j2, ?j3⟩
        · intro _
          exact le_trans (plainFoldMin_le e rest _)
            (le_trans (min_le_right p0 (e m)) (hA hva))
        · intro hbv
          exact absurd (le_trans hbv hva) (not_le.mpr halb)
        · intro h1 _
          exact absurd h1 (not_lt.mpr hva)
      · rw [if_neg hbr]
        have hlt : alpha <
            min (min beta m0) (recur (pushB R st m) alpha (min beta m0)).1 :=
          not_le.mp hbr
        have hva' : alpha < (recur (pushB R st m) alpha (min beta m0)).1 :=
          lt_of_lt_of_le hlt (min_le_right _ _)
        have hab1 : alpha <
            min beta (min m0 (recur (pushB R st m) alpha (min beta m0)).1) := by
          rw [← min_assoc]
          exact hlt
        have hp1 : min m0 (recur (pushB R st m) alpha (min beta m0)).1 ≤
            min p0 (e m) := by
          rcases le_or_lt (min beta m0) (recur (pushB R st m) alpha (min beta m0)).1
            with hvge | hvlt
          · exact le_min (le_trans (min_le_left _ _) hp)
              (le_trans (min_le_right _ _) (hB hvge))
          · have hveq := hC hva' hvlt
            exact le_min (le_trans (min_le_left _ _) hp) (hveq ▸ min_le_right _ _)
        have hq1 : min m0 (recur (pushB R st m) alpha (min beta m0)).1 < beta →
            min p0 (e m) ≤ min m0 (recur (pushB R st m) alpha (min beta m0)).1 := by
          intro h1
          rcases le_or_lt m0 (recur (pushB R st m) alpha (min beta m0)).1
            with hvm | hvm
          · rw [min_eq_left hvm] at h1 ⊢
            exact le_trans (min_le_left p0 (e m)) (hq h1)
          · rw [min_eq_right hvm.le] at h1 ⊢
            have hveq := hC hva' (lt_min h1 hvm)
            rw [hveq]
            exact min_le_right p0 (e m)
        rw [min_assoc]
        exact ih (min m0 (recur (pushB R st m) alpha (min beta m0)).1)
          (min p0 (e m)) _ hab1 hp1 hq1

theorem plainMaxLoop_fst {Pos Move : Type} (pe : Pos → Score) (R : Rules Pos Move) :
    ∀ (ms : List Move) (p : Pos) (acc : Score) (bm : Option Move),
      (plainMaxLoop pe R ms p acc bm).1 =
        plainFoldMax (fun m => pe (R.push p m)) ms acc := by
  intro ms
  induction ms with
  | nil => intro p acc bm; rfl
  | cons m rest ih =>
      intro p acc bm
      simp only [plainMaxLoop, plainFoldMax, gt_iff_lt]
      by_cases h : acc < pe (R.push p m)
      · rw [if_pos h, if_pos h, ih]
      · rw [if_neg h, if_neg h, ih]

theorem plainMinLoop_fst {Pos Move : Type} (pe : Pos → Score) (R : Rules Pos Move) :
    ∀ (ms : List Move) (p : Pos) (acc : Score) (bm : Option Move),
      (plainMinLoop pe R ms p acc bm).1 =
        plainFoldMin (fun m => pe (R.push p m)) ms acc := by
  intro ms
  induction ms with
  | nil => intro p acc bm; rfl
  | cons m rest ih =>
      intro p acc bm
      simp only [plainMinLoop, plainFoldMin]
      by_cases h : pe (R.push p m) < acc
      · rw [if_pos h, if_pos h, ih]
      · rw [if_neg h, if_neg h, ih]

theorem minimax_zero {Pos Move : Type} (R : Rules Pos Move) (st : Board Pos Move)
    (alpha beta : Score) (maxi : Bool) :
    minimax R 0 st alpha beta maxi =
      (Score.val (evaluate_board R st.current), none, st) := rfl

theorem plainMinimax_zero {Pos Move : Type} (R : Rules Pos Move) (p : Pos)
    (maxi : Bool) :
    plainMinimax R 0 p maxi = (Score.val (evaluate_board R p), none) := rfl

theorem minimax_succ_over {Pos Move : Type} (R : Rules Pos Move) (d : Nat)
    (st : Board Pos Move) (alpha beta : Score) (maxi : Bool)
    (hg : R.is_game_over st.current = true) :
    minimax R (d + 1) st alpha beta maxi =
      (Score.val (evaluate_board R st.current), none, st) := by
  simp [minimax, hg]

theorem plainMinimax_over {Pos Move : Type} (R : Rules Pos Move) (d : Nat)
    (p : Pos) (maxi : Bool) (hg : R.is_game_over p = true) :
    plainMinimax R (d + 1) p maxi = (Score.val (evaluate_board R p), none) := by
  simp [plainMinimax, hg]

theorem minimax_succ_max {Pos Move : Type} (R : Rules Pos Move) (d : Nat)
    (st : Board Pos Move) (alpha beta : Score)
    (hg : R.is_game_over st.current = false) :
    minimax R (d + 1) st alpha beta true =
      maxLoop (fun st' a b => minimax R d st' a b false) R
        (R.legal_moves st.current) st Score.negInf none alpha beta := by
  simp [minimax, hg]

theorem minimax_succ_min {Pos Move : Type} (R : Rules Pos Move) (d : Nat)
    (st : Board Pos Move) (alpha beta : Score)
    (hg : R.is_game_over st.current = false) :
    minimax R (d + 1) st alpha beta false =
      minLoop (fun st' a b => minimax R d st' a b true) R
        (R.legal_moves st.current) st Score.posInf none alpha beta := by
  simp [minimax, hg]

theorem plainMinimax_succ_max {Pos Move : Type} (R : Rules Pos Move) (d : Nat)
    (p : Pos) (hg : R.is_game_over p = false) :
    plainMinimax R (d + 1) p true =
      plainMaxLoop (fun q => (plainMinimax R d q false).1) R
        (R.legal_moves p) p Score.negInf none := by
  simp [plainMinimax, hg]

theorem plainMinimax_succ_min {Pos Move : Type} (R : Rules Pos Move) (d : Nat)
    (p : Pos) (hg : R.is_game_over p = false) :
    plainMinimax R (d + 1) p false =
      plainMinLoop (fun q => (plainMinimax R d q true).1) R
        (R.legal_moves p) p Score.posInf none := by
  simp [plainMinimax, hg]

theorem max_alpha_negInf (alpha : Score) : max alpha Score.negInf = alpha :=
  max_eq_left (by rw [Score.negInf_eq_bot]; exact bot_le)

theorem min_beta_posInf (beta : Score) : min beta Score.posInf = beta :=
  min_eq_left (by rw [Score.posInf_eq_top]; exact le_top)

theorem minimax_bounds {Pos Move : Type} (R : Rules Pos Move) :
    ∀ (d : Nat) (st : Board Pos Move) (alpha beta : Score) (maxi : Bool),
      alpha < beta →
      (((minimax R d st alpha beta maxi).1 ≤ alpha →
         (plainMinimax R d st.current maxi).1 ≤ (minimax R d st alpha beta maxi).1) ∧
       (beta ≤ (minimax R d st alpha beta maxi).1 →
         (minimax R d st alpha beta maxi).1 ≤ (plainMinimax R d st.current maxi).1) ∧
       (alpha < (minimax R d st alpha beta maxi).1 →
         (minimax R d st alpha beta maxi).1 < beta →
         (minimax R d st alpha beta maxi).1 = (plainMinimax R d st.current maxi).1)) := by
  intro d
  induction d with
  | zero =>
      intro st alpha beta maxi hab
      rw [minimax_zero, plainMinimax_zero]
      exact ⟨fun _ => le_refl _, fun _ => le_refl _, fun _ _ => rfl⟩
  | succ d ih =>
      intro st alpha beta maxi hab
      cases hG : R.is_game_over st.current
      · cases maxi
        · rw [minimax_succ_min R d st alpha beta hG,
            plainMinimax_succ_min R d st.current hG, plainMinLoop_fst]
          have H := minLoop_bounds R (fun st' a b => minimax R d st' a b true)
            (fun m => (plainMinimax R d (R.push st.current m) true).1) st alpha beta
            (fun st' a b => minimax_frame R d st' a b true)
            (fun m b hb => ih (pushB R st m) alpha b true hb)
            (R.legal_moves st.current) Score.posInf Score.posInf none
            (by rw [min_beta_posInf]; exact hab) (le_refl _)
            (fun h => absurd h (by rw [Score.posInf_eq_top]; exact not_top_lt))
          rw [min_beta_posInf] at H
          exact H
        · rw [minimax_succ_max R d st alpha beta hG,
            plainMinimax_succ_max R d st.current hG, plainMaxLoop_fst]
          have H := maxLoop_bounds R (fun st' a b => minimax R d st' a b false)
            (fun m => (plainMinimax R d (R.push st.current m) false).1) st alpha beta
            (fun st' a b => minimax_frame R d st' a b false)
            (fun m a ha => ih (pushB R st m) a beta false ha)
            (R.legal_moves st.current) Score.negInf Score.negInf none
            (by rw [max_alpha_negInf]; exact hab) (le_refl _)
            (fun h => absurd h (by rw [Score.negInf_eq_bot]; exact not_lt_bot))
          rw [max_alpha_negInf] at H
          exact H
      · rw [minimax_succ_over R d st alpha beta maxi hG,
          plainMinimax_over R d st.current maxi hG]
        exact ⟨fun _ => le_refl _, fun _ => le_refl _, fun _ _ => rfl⟩

theorem plainMaxLoop_top {Pos Move : Type} (pe : Pos → Score) (R : Rules Pos Move) :
    ∀ (ms : List Move) (p : Pos) (bm : Option Move),
      plainMaxLoop pe R ms p Score.posInf bm = (Score.posInf, bm) := by
  intro ms
  induction ms with
  | nil => intro p bm; rfl
  | cons m rest ih =>
      intro p bm
      simp only [plainMaxLoop, gt_iff_lt]
      rw [if_neg (by rw [Score.posInf_eq_top]; exact not_top_lt)]
      exact ih p bm

theorem plainMinLoop_bot {Pos Move : Type} (pe : Pos → Score) (R : Rules Pos Move) :
    ∀ (ms : List Move) (p : Pos) (bm : Option Move),
      plainMinLoop pe R ms p Score.negInf bm = (Score.negInf, bm) := by
  intro ms
  induction ms with
  | nil => intro p bm; rfl
  | cons m rest ih =>
      intro p bm
      simp only [plainMinLoop]
      rw [if_neg (by rw [Score.negInf_eq_bot]; exact not_lt_bot)]
      exact ih p bm

theorem maxLoop_root {Pos Move : Type} (R : Rules Pos Move)
    (recur : Board Pos Move → Score → Score → Score × Option Move × Board Pos Move)
    (pe : Pos → Score) (st : Board Pos Move)
    (hframe : ∀ st' a b, (recur st' a b).2.2 = st')
    (hrec : ∀ (m : Move) (a : Score), a < Score.posInf →
      (((recur (pushB R st m) a Score.posInf).1 ≤ a →
          pe (R.push st.current m) ≤ (recur (pushB R st m) a Score.posInf).1) ∧
       (Score.posInf ≤ (recur (pushB R st m) a Score.posInf).1 →
          (recur (pushB R st m) a Score.posInf).1 ≤ pe (R.push st.current m)) ∧
       (a < (recur (pushB R st m) a Score.posInf).1 →
          (recur (pushB R st m) a Score.posInf).1 < Score.posInf →
          (recur (pushB R st m) a Score.posInf).1 = pe (R.push st.current m)))) :
    ∀ (ms : List Move) (m0 : Score) (bm : Option Move),
      m0 < Score.posInf →
      ((maxLoop recur R ms st m0 bm m0 Score.posInf).1,
       (maxLoop recur R ms st m0 bm m0 Score.posInf).2.1) =
        plainMaxLoop pe R ms st.current m0 bm := by
  intro ms
  induction ms with
  | nil => intro m0 bm hm0; rfl
  | cons m rest ih =>
      intro m0 bm hm0
      obtain ⟨hA, hB, hC⟩ := hrec m m0 hm0
      rw [maxLoop_cons recur R hframe]
      by_cases hbr : Score.posInf ≤ max m0 (recur (pushB R st m) m0 Score.posInf).1
      · rw [if_pos hbr]
        have hvtop : Score.posInf ≤ (recur (pushB R st m) m0 Score.posInf).1 := by
          rcases le_max_iff.mp hbr with h | h
          · exact absurd h (not_le.mpr hm0)
          · exact h
        have hveq : (recur (pushB R st m) m0 Score.posInf).1 = Score.posInf := by
          rw [Score.posInf_eq_top] at hvtop ⊢
          exact top_unique hvtop
        have hm0v : m0 < (recur (pushB R st m) m0 Score.posInf).1 := by
          rw [hveq]; exact hm0
        have hep : Score.posInf ≤ pe (R.push st.current m) :=
          le_trans hvtop (hB hvtop)
        have hepeq : pe (R.push st.current m) = Score.posInf := by
          rw [Score.posInf_eq_top] at hep ⊢
          exact top_unique hep
        rw [if_pos hm0v, max_eq_right hm0v.le, hveq]
        simp only [plainMaxLoop, gt_iff_lt]
        rw [if_pos (show m0 < pe (R.push st.current m) by rw [hepeq]; exact hm0),
          hepeq, plainMaxLoop_top]
      · rw [if_neg hbr]
        have hvlt : (recur (pushB R st m) m0 Score.posInf).1 < Score.posInf :=
          lt_of_le_of_lt (le_max_right _ _) (not_le.mp hbr)
        by_cases hv0 : m0 < (recur (pushB R st m) m0 Score.posInf).1
        · have hveq := hC hv0 hvlt
          rw [if_pos hv0, max_eq_right hv0.le]
          simp only [plainMaxLoop, gt_iff_lt]
          rw [if_pos (show m0 < pe (R.push st.current m) from hveq ▸ hv0), ← hveq]
          exact ih _ (some m) hvlt
        · rw [if_neg hv0, max_eq_left (not_lt.mp hv0)]
          have hep : pe (R.push st.current m) ≤ m0 :=
            le_trans (hA (not_lt.mp hv0)) (not_lt.mp hv0)
          simp only [plainMaxLoop, gt_iff_lt]
          rw [if_neg (not_lt.mpr hep)]
          exact ih m0 bm hm0

theorem minLoop_root {Pos Move : Type} (R : Rules Pos Move)
    (recur : Board Pos Move → Score → Score → Score × Option Move × Board Pos Move)
    (pe : Pos → Score) (st : Board Pos Move)
    (hframe : ∀ st' a b, (recur st' a b).2.2 = st')
    (hrec : ∀ (m : Move) (b : Score), Score.negInf < b →
      (((recur (pushB R st m) Score.negInf b).1 ≤ Score.negInf →
          pe (R.push st.current m) ≤ (recur (pushB R st m) Score.negInf b).1) ∧
       (b ≤ (recur (pushB R st m) Score.negInf b).1 →
          (recur (pushB R st m) Score.negInf b).1 ≤ pe (R.push st.current m)) ∧
       (Score.negInf < (recur (pushB R st m) Score.negInf b).1 →
          (recur (pushB R st m) Score.negInf b).1 < b →
          (recur (pushB R st m) Score.negInf b).1 = pe (R.push st.current m)))) :
    ∀ (ms : List Move) (m0 : Score) (bm : Option Move),
      Score.negInf < m0 →
      ((minLoop recur R ms st m0 bm Score.negInf m0).1,
       (minLoop recur R ms st m0 bm Score.negInf m0).2.1) =
        plainMinLoop pe R ms st.current m0 bm := by
  intro ms
  induction ms with
  | nil => intro m0 bm hm0; rfl
  | cons m rest ih =>
      intro m0 bm hm0
      obtain ⟨hA, hB, hC⟩ := hrec m m0 hm0
      rw [minLoop_cons recur R hframe]
      by_cases hbr : min m0 (recur (pushB R st m) Score.negInf m0).1 ≤ Score.negInf
      · rw [if_pos hbr]
        have hvbot : (recur (pushB R st m) Score.negInf m0).1 ≤ Score.negInf := by
          rcases min_le_iff.mp hbr with h | h
          · exact absurd h (not_le.mpr hm0)
          · exact h
        have hveq : (recur (pushB R st m) Score.negInf m0).1 = Score.negInf := by
          rw [Score.negInf_eq_bot] at hvbot ⊢
          exact le_bot_iff.mp hvbot
        have hvm0 : (recur (pushB R st m) Score.negInf m0).1 < m0 := by
          rw [hveq]; exact hm0
        have hep : pe (R.push st.current m) ≤ Score.negInf :=
          le_trans (hA hvbot) hvbot
        have hepeq : pe (R.push st.current m) = Score.negInf := by
          rw [Score.negInf_eq_bot] at hep ⊢
          exact le_bot_iff.mp hep
        rw [if_pos hvm0, min_eq_right hvm0.le, hveq]
        simp only [plainMinLoop]
        rw [if_pos (show pe (R.push st.current m) < m0 by rw [hepeq]; exact hm0),
          hepeq, plainMinLoop_bot]
      · rw [if_neg hbr]
        have hvgt : Score.negInf < (recur (pushB R st m) Score.negInf m0).1 :=
          lt_of_lt_of_le (not_le.mp hbr) (min_le_right _ _)
        by_cases hv0 : (recur (pushB R st m) Score.negInf m0).1 < m0
        · have hveq := hC hvgt hv0
          rw [if_pos hv0, min_eq_right hv0.le]
          simp only [plainMinLoop]
          rw [if_pos (show pe (R.push st.current m) < m0 from hveq ▸ hv0), ← hveq]
          exact ih _ (some m) hvgt
        · rw [if_neg hv0, min_eq_left (not_lt.mp hv0)]
          have hep : m0 ≤ pe (R.push st.current m) :=
            le_trans (not_lt.mp hv0) (hB (not_lt.mp hv0))
          simp only [plainMinLoop]
          rw [if_neg (not_lt.mpr hep)]
          exact ih m0 bm hm0

/-- Claim C2: for every Rules Engine, Position and depth, alpha-beta minimax
run with the full window from negative to positive infinity returns exactly
the (score, move) pair of plain minimax without pruning over the same tree,
for both the maximizing and the minimizing side. -/
theorem minimax_pruning_equiv {Pos Move : Type} (R : Rules Pos Move) (d : Nat)
    (st : Board Pos Move) (maxi : Bool) :
    ((minimax R d st Score.negInf Score.posInf maxi).1,
     (minimax R d st Score.negInf Score.posInf maxi).2.1) =
      plainMinimax R d st.current maxi := by
  cases d with
  | zero => rw [minimax_zero, plainMinimax_zero]
  | succ d =>
      cases hG : R.is_game_over st.current
      · cases maxi
        · rw [minimax_succ_min R d st Score.negInf Score.posInf hG,
            plainMinimax_succ_min R d st.current hG]
          exact minLoop_root R (fun st' a b => minimax R d st' a b true)
            (fun q => (plainMinimax R d q true).1) st
            (fun st' a b => minimax_frame R d st' a b true)
            (fun m b hb => minimax_bounds R d (pushB R st m) Score.negInf b true hb)
            (R.legal_moves st.current) Score.posInf none (by decide)
        · rw [minimax_succ_max R d st Score.negInf Score.posInf hG,
            plainMinimax_succ_max R d st.current hG]
          exact maxLoop_root R (fun st' a b => minimax R d st' a b false)
            (fun q => (plainMinimax R d q false).1) st
            (fun st' a b => minimax_frame R d st' a b false)
            (fun m a ha => minimax_bounds R d (pushB R st m) a Score.posInf false ha)
            (R.legal_moves st.current) Score.negInf none (by decide)
      · rw [minimax_succ_over R d st Score.negInf Score.posInf maxi hG,
          plainMinimax_over R d st.current maxi hG]

theorem maxLoop_val {Pos Move : Type} (R : Rules Pos Move)
    (recur : Board Pos Move → Score → Score → Score × Option Move × Board Pos Move)
    (hframe : ∀ st' a b, (recur st' a b).2.2 = st')
    (hrec : ∀ st' a b, ∃ n : Int, (recur st' a b).1 = Score.val n) :
    ∀ (ms : List Move) (st : Board Pos Move) (m0 : Score) (bm : Option Move)
      (alpha beta : Score),
      (m0 = Score.negInf → ms ≠ []) →
      (m0 = Score.negInf ∨ ∃ n : Int, m0 = Score.val n) →
      ∃ n : Int, (maxLoop recur R ms st m0 bm alpha beta).1 = Score.val n := by
  intro ms
  induction ms with
  | nil =>
      intro st m0 bm alpha beta h1 h2
      rcases h2 with h | ⟨j, hj⟩
      · exact absurd rfl (h1 h)
      · exact ⟨j, hj⟩
  | cons m rest ih =>
      intro st m0 bm alpha beta _ h2
      obtain ⟨k, hk⟩ := hrec (pushB R st m) alpha beta
      have hm1 : ∃ n : Int,
          max m0 (recur (pushB R st m) alpha beta).1 = Score.val n := by
        rcases h2 with h | ⟨j, hj⟩
        · refine ⟨k, ?v⟩
          rw [h, Score.negInf_eq_bot, max_eq_right bot_le, hk]
        · rcases max_choice m0 ((recur (pushB R st m) alpha beta).1) with hc | hc
          · exact ⟨j, by rw [hc, hj]⟩
          · exact ⟨k, by rw [hc, hk]⟩
      obtain ⟨n, hn⟩ := hm1
      rw [maxLoop_cons recur R hframe]
      by_cases hbr : beta ≤ max alpha (recur (pushB R st m) alpha beta).1
      · rw [if_pos hbr]
        exact ⟨n, hn⟩
      · rw [if_neg hbr]
        exact ih st _ _ _ _ (fun habs => absurd (hn.symm.trans habs)
          (fun hcontra => Score.noConfusion hcontra)) (Or.inr ⟨n, hn⟩)

theorem minLoop_val {Pos Move : Type} (R : Rules Pos Move)
    (recur : Board Pos Move → Score → Score → Score × Option Move × Board Pos Move)
    (hframe : ∀ st' a b, (recur st' a b).2.2 = st')
    (hrec : ∀ st' a b, ∃ n : Int, (recur st' a b).1 = Score.val n) :
    ∀ (ms : List Move) (st : Board Pos Move) (m0 : Score) (bm : Option Move)
      (alpha beta : Score),
      (m0 = Score.posInf → ms ≠ []) →
      (m0 = Score.posInf ∨ ∃ n : Int, m0 = Score.val n) →
      ∃ n : Int, (minLoop recur R ms st m0 bm alpha beta).1 = Score.val n := by
  intro ms
  induction ms with
  | nil =>
      intro st m0 bm alpha beta h1 h2
      rcases h2 with h | ⟨j, hj⟩
      · exact absurd rfl (h1 h)
      · exact ⟨j, hj⟩
  | cons m rest ih =>
      intro st m0 bm alpha beta _ h2
      obtain ⟨k, hk⟩ := hrec (pushB R st m) alpha beta
      have hm1 : ∃ n : Int,
          min m0 (recur (pushB R st m) alpha beta).1 = Score.val n := by
        rcases h2 with h | ⟨j, hj⟩
        · refine ⟨k, ?v⟩
          rw [h, Score.posInf_eq_top, min_eq_right le_top, hk]
        · rcases min_choice m0 ((recur (pushB R st m) alpha beta).1) with hc | hc
          · exact ⟨j, by rw [hc, hj]⟩
          · exact ⟨k, by rw [hc, hk]⟩
      obtain ⟨n, hn⟩ := hm1
      rw [minLoop_cons recur R hframe]
      by_cases hbr : min beta (recur (pushB R st m) alpha beta).1 ≤ alpha
      · rw [if_pos hbr]
        exact ⟨n, hn⟩
      · rw [if_neg hbr]
        exact ih st _ _ _ _ (fun habs => absurd (hn.symm.trans habs)
          (fun hcontra => Score.noConfusion hcontra)) (Or.inr ⟨n, hn⟩)

theorem minimax_val {Pos Move : Type} (R : Rules Pos Move)
    (hcons : ∀ p, R.is_game_over p = false → R.legal_moves p ≠ []) :
    ∀ (d : Nat) (st : Board Pos Move) (alpha beta : Score) (maxi : Bool),
      ∃ n : Int, (minimax R d st alpha beta maxi).1 = Score.val n := by
  intro d
  induction d with
  | zero =>
      intro st alpha beta maxi
      exact ⟨evaluate_board R st.current, by rw [minimax_zero]⟩
  | succ d ih =>
      intro st alpha beta maxi
      cases hG : R.is_game_over st.current
      · cases maxi
        · rw [minimax_succ_min R d st alpha beta hG]
          exact minLoop_val R (fun st' a b => minimax R d st' a b true)
            (fun st' a b => minimax_frame R d st' a b true)
            (fun st' a b => ih st' a b true)
            (R.legal_moves st.current) st Score.posInf none alpha beta
            (fun _ => hcons st.current hG) (Or.inl rfl)
        · rw [minimax_succ_max R d st alpha beta hG]
          exact maxLoop_val R (fun st' a b => minimax R d st' a b false)
            (fun st' a b => minimax_frame R d st' a b false)
            (fun st' a b => ih st' a b false)
            (R.legal_moves st.current) st Score.negInf none alpha beta
            (fun _ => hcons st.current hG) (Or.inl rfl)
      · rw [minimax_succ_over R d st alpha beta maxi hG]
        exact ⟨evaluate_board R st.current, rfl⟩

theorem maxLoop_some {Pos Move : Type} (R : Rules Pos Move)
    (recur : Board Pos Move → Score → Score → Score × Option Move × Board Pos Move)
    (hframe : ∀ st' a b, (recur st' a b).2.2 = st') :
    ∀ (ms : List Move) (st : Board Pos Move) (m0 : Score) (bm : Option Move)
      (alpha beta : Score), bm.isSome = true →
      (maxLoop recur R ms st m0 bm alpha beta).2.1.isSome = true := by
  intro ms
  induction ms with
  | nil => intro st m0 bm alpha beta h; exact h
  | cons m rest ih =>
      intro st m0 bm alpha beta h
      rw [maxLoop_cons recur R hframe]
      have hb1 : (if m0 < (recur (pushB R st m) alpha beta).1 then some m
          else bm).isSome = true := by
        by_cases hv : m0 < (recur (pushB R st m) alpha beta).1
        · rw [if_pos hv]; rfl
        · rw [if_neg hv]; exact h
      by_cases hbr : beta ≤ max alpha (recur (pushB R st m) alpha beta).1
      · rw [if_pos hbr]
        exact hb1
      · rw [if_neg hbr]
        exact ih st _ _ _ _ hb1

theorem minLoop_some {Pos Move : Type} (R : Rules Pos Move)
    (recur : Board Pos Move → Score → Score → Score × Option Move × Board Pos Move)
    (hframe : ∀ st' a b, (recur st' a b).2.2 = st') :
    ∀ (ms : List Move) (st : Board Pos Move) (m0 : Score) (bm : Option Move)
      (alpha beta : Score), bm.isSome = true →
      (minLoop recur R ms st m0 bm alpha beta).2.1.isSome = true := by
  intro ms
  induction ms with
  | nil => intro st m0 bm alpha beta h; exact h
  | cons m rest ih =>
      intro st m0 bm alpha beta h
      rw [minLoop_cons recur R hframe]
      have hb1 : (if (recur (pushB R st m) alpha beta).1 < m0 then some m
          else bm).isSome = true := by
        by_cases hv : (recur (pushB R st m) alpha beta).1 < m0
        · rw [if_pos hv]; rfl
        · rw [if_neg hv]; exact h
      by_cases hbr : min beta (recur (pushB R st m) alpha beta).1 ≤ alpha
      · rw [if_pos hbr]
        exact hb1
      · rw [if_neg hbr]
        exact ih st _ _ _ _ hb1

/-- Claim C10: with a Rules Engine that, as the real one guarantees, offers
at least one legal move in every position not reported game over, minimax at
depth greater than 0 on a live position always returns a present move, for
any window and either side; absence-of-move can only arise at depth 0 or at
a terminal position. -/
theorem minimax_returns_move {Pos Move : Type} (R : Rules Pos Move)
    (hcons : ∀ p, R.is_game_over p = false → R.legal_moves p ≠ [])
    (d : Nat) (st : Board Pos Move) (alpha beta : Score) (maxi : Bool)
    (hd : 0 < d) (hG : R.is_game_over st.current = false) :
    ∃ m, (minimax R d st alpha beta maxi).2.1 = some m := by
  cases d with
  | zero => exact absurd hd (lt_irrefl 0)
  | succ d =>
      cases maxi
      · rw [minimax_succ_min R d st alpha beta hG]
        rcases hlegal : R.legal_moves st.current with _ | ⟨m, rest⟩
        · exact absurd hlegal (hcons st.current hG)
        · rw [minLoop_cons _ R (fun st' a b => minimax_frame R d st' a b true)]
          obtain ⟨n, hn⟩ := minimax_val R hcons d (pushB R st m) alpha beta true
          have hvlt : (minimax R d (pushB R st m) alpha beta true).1 <
              Score.posInf := by
            rw [hn]; exact Score.val_lt_posInf n
          rw [if_pos hvlt]
          by_cases hbr : min beta (minimax R d (pushB R st m) alpha beta true).1
              ≤ alpha
          · rw [if_pos hbr]
            exact ⟨m, rfl⟩
          · rw [if_neg hbr]
            exact Option.isSome_iff_exists.mp
              (minLoop_some R _ (fun st' a b => minimax_frame R d st' a b true)
                rest st _ (some m) alpha _ rfl)
      · rw [minimax_succ_max R d st alpha beta hG]
        rcases hlegal : R.legal_moves st.current with _ | ⟨m, rest⟩
        · exact absurd hlegal (hcons st.current hG)
        · rw [maxLoop_cons _ R (fun st' a b => minimax_frame R d st' a b false)]
          obtain ⟨n, hn⟩ := minimax_val R hcons d (pushB R st m) alpha beta false
          have hvgt : Score.negInf <
              (minimax R d (pushB R st m) alpha beta false).1 := by
            rw [hn]; exact Score.negInf_lt_val n
          rw [if_pos hvgt]
          by_cases hbr : beta ≤
              max alpha (minimax R d (pushB R st m) alpha beta false).1
          · rw [if_pos hbr]
            exact ⟨m, rfl⟩
          · rw [if_neg hbr]
            exact Option.isSome_iff_exists.mp
              (maxLoop_some R _ (fun st' a b => minimax_frame R d st' a b false)
                rest st _ (some m) _ beta rfl)

/-- Witness for claim C10: the consistent two-position game returns a move at
depth 1 from its live start position. -/
theorem minimax_returns_move_witness :
    ∃ m, (minimax stepR 1 ⟨[], false⟩ Score.negInf Score.posInf true).2.1 =
      some m :=
  minimax_returns_move stepR (by decide) 1 ⟨[], false⟩ Score.negInf Score.posInf
    true (by decide) rfl

theorem piece_values_natAbs_le (t : PieceType) : (piece_values t).natAbs ≤ 9 := by
  cases t <;> decide

theorem material_natAbs_le {Pos Move : Type} (R : Rules Pos Move) (p : Pos) :
    (material R p).natAbs ≤ 576 := by
  have key : ∀ (l : List Nat) (acc : Int),
      (l.foldl
        (fun score square =>
          match R.piece_at p square with
          | some piece =>
              score +
                (if piece.color = WHITE then piece_values piece.piece_type
                 else -piece_values piece.piece_type)
          | none => score)
        acc).natAbs ≤ acc.natAbs + 9 * l.length := by
    intro l
    induction l with
    | nil => intro acc; simp
    | cons x xs ih =>
        intro acc
        have hstep : ((match R.piece_at p x with
            | some piece =>
                acc +
                  (if piece.color = WHITE then piece_values piece.piece_type
                   else -piece_values piece.piece_type)
            | none => acc) : Int).natAbs ≤ acc.natAbs + 9 := by
          cases hpc : R.piece_at p x with
          | none => simp
          | some piece =>
              simp only
              by_cases hc : piece.color = WHITE
              · rw [if_pos hc]
                exact le_trans (Int.natAbs_add_le acc _)
                  (Nat.add_le_add_left (piece_values_natAbs_le piece.piece_type) _)
              · rw [if_neg hc]
                refine le_trans (Int.natAbs_add_le acc _) ?bound
                rw [Int.natAbs_neg]
                exact Nat.add_le_add_left (piece_values_natAbs_le piece.piece_type) _
        calc ((x :: xs).foldl _ acc).natAbs
            ≤ _ + 9 * xs.length := by rw [List.foldl_cons]; exact ih _
          _ ≤ (acc.natAbs + 9) + 9 * xs.length := Nat.add_le_add_right hstep _
          _ = acc.natAbs + 9 * (x :: xs).length := by
              rw [List.length_cons]; ring
  have h := key (List.range 64) 0
  rw [List.length_range] at h
  exact le_trans h (by norm_num)

/-- Claim C9: the evaluation is bounded by the mate sentinel 1000 in
magnitude; on checkmate the magnitude is exactly 1000; on any non-checkmate
position it is bounded by the material maximum 576 of 64 squares worth at
most 9 each, so every checkmate evaluation strictly dominates every
non-checkmate evaluation in magnitude; and finite scores never coincide with
the infinity sentinels of the alpha-beta window. -/
theorem evaluate_terminal_dominance {Pos Move : Type} (R : Rules Pos Move)
    (p q : Pos) :
    (evaluate_board R p).natAbs ≤ 1000 ∧
    (R.is_checkmate p = true → (evaluate_board R p).natAbs = 1000) ∧
    (R.is_checkmate p = false → (evaluate_board R p).natAbs ≤ 576) ∧
    (R.is_checkmate p = true → R.is_checkmate q = false →
      (evaluate_board R q).natAbs < (evaluate_board R p).natAbs) ∧
    (∀ n : Int, Score.val n ≠ Score.negInf ∧ Score.val n ≠ Score.posInf) := by
  have hcm : ∀ r : Pos, R.is_checkmate r = true →
      (evaluate_board R r).natAbs = 1000 := by
    intro r h
    rw [evaluate_board, if_pos h]
    by_cases ht : R.turn r
    · rw [if_pos ht]; rfl
    · rw [if_neg ht]; rfl
  have hnc : ∀ r : Pos, R.is_checkmate r = false →
      (evaluate_board R r).natAbs ≤ 576 := by
    intro r h
    rw [evaluate_board, if_neg (by rw [h]; exact Bool.false_ne_true)]
    by_cases hs : R.is_stalemate r
    · rw [if_pos hs]; exact Nat.zero_le 576
    · rw [if_neg hs]; exact material_natAbs_le R r
  refine ⟨?c1, hcm p, hnc p, ?c4, fun n => ⟨Score.val_ne_negInf n, Score.val_ne_posInf n⟩⟩
  · cases hv : R.is_checkmate p
    · exact le_trans (hnc p hv) (by norm_num)
    · exact le_of_eq (hcm p hv)
  · intro hp hq
    rw [hcm p hp]
    exact lt_of_le_of_lt (hnc q hq) (by norm_num)

/-- Witness for claim C9: in the two-position game the mate evaluation has
magnitude 1000 and strictly dominates the quiet-position evaluation, which is
within the material bound. -/
theorem evaluate_terminal_dominance_witness :
    (evaluate_board dominR false).natAbs < (evaluate_board dominR true).natAbs ∧
    (evaluate_board dominR true).natAbs = 1000 ∧
    (evaluate_board dominR false).natAbs ≤ 576 :=
  ⟨(evaluate_terminal_dominance dominR true false).2.2.2.1 rfl rfl,
   (evaluate_terminal_dominance dominR true false).2.1 rfl,
   (evaluate_terminal_dominance dominR false false).2.2.1 rfl⟩

end ChessAI
